import Mathlib

/-!
Verification of the llmflow interpreter (src/src/interpreter.ts) against its
specification.  The interpreter executes programs made of six routine kinds
(prompt, code, define, if, compose, join) over a key-value environment,
building an execution trace.  JavaScript objects are modelled as association
lists with first-key lookup and overwrite-or-append update, which matches
unique-key object semantics; JavaScript `undefined` is the value `Val.undef`.
-/

namespace LLMFlow

/-- A JavaScript runtime value as it can appear in an environment:
string, number, boolean, `undefined`, or an array. -/
inductive Val where
  | str (s : String)
  | num (n : Int)
  | bool (b : Bool)
  | undef
  | arr (vs : List Val)

/-- An environment: a JavaScript object, keys unique, modelled as an
association list. -/
abbrev Env := List (String × Val)

/-- Object property lookup (`env[k]` / `k in env`): first matching key. -/
def Env.get : Env → String → Option Val
  | [], _ => none
  | (k, v) :: rest, key => if k = key then some v else Env.get rest key

/-- Object property write (`obj[k] = v`): overwrite the existing key in
place, else append. -/
def Env.set : Env → String → Val → Env
  | [], key, v => [(key, v)]
  | (k, v0) :: rest, key, v =>
    if k = key then (k, v) :: rest else (k, v0) :: Env.set rest key v

/-- Model of `Object.assign(target, src)`: copy each property of `src` onto `target`
in order, later writes winning. -/
def Env.assign (target src : Env) : Env :=
  src.foldl (fun acc kv => Env.set acc kv.1 kv.2) target

theorem Env.get_set_self (e : Env) (k : String) (v : Val) :
    Env.get (Env.set e k v) k = some v := by
  induction e with
  | nil => simp [Env.set, Env.get]
  | cons hd tl ih =>
    by_cases h : hd.1 = k
    · simp [Env.set, Env.get, h]
    · simp [Env.set, Env.get, h, ih]

theorem Env.get_set_ne (e : Env) (k k' : String) (v : Val) (h : k ≠ k') :
    Env.get (Env.set e k v) k' = Env.get e k' := by
  induction e with
  | nil => simp [Env.set, Env.get, h]
  | cons hd tl ih =>
    by_cases hk : hd.1 = k
    · simp [Env.set, Env.get, hk, h]
    · simp [Env.set, Env.get, hk, ih]

theorem Env.assign_nil (a : Env) : Env.assign a [] = a := rfl

theorem Env.assign_cons (a : Env) (kv : String × Val) (l : Env) :
    Env.assign a (kv :: l) = Env.assign (Env.set a kv.1 kv.2) l := rfl

theorem Env.set_eq_assign_single (a : Env) (k : String) (v : Val) :
    Env.set a k v = Env.assign a [(k, v)] := rfl

/-- Keys not written by `assign` keep their value from the target. -/
theorem Env.get_assign_not_mem (a b : Env) (k : String)
    (h : k ∉ b.map Prod.fst) :
    Env.get (Env.assign a b) k = Env.get a k := by
  induction b generalizing a with
  | nil => rfl
  | cons hd tl ih =>
    simp only [List.map_cons, List.mem_cons] at h
    push_neg at h
    rw [Env.assign_cons, ih _ h.2, Env.get_set_ne _ _ _ _ (fun he => h.1 he.symm)]

/-- On a duplicate-free source, `assign` gives every source key its source
value: the later operand of the merge wins. -/
theorem Env.get_assign_mem (a b : Env) (k : String) (v : Val)
    (hnd : (b.map Prod.fst).Nodup) (h : Env.get b k = some v) :
    Env.get (Env.assign a b) k = some v := by
  induction b generalizing a with
  | nil => simp [Env.get] at h
  | cons hd tl ih =>
    simp only [List.map_cons, List.nodup_cons] at hnd
    by_cases hk : hd.1 = k
    · simp only [Env.get, hk, if_pos rfl] at h
      rw [Env.assign_cons, Env.get_assign_not_mem _ _ _ (hk ▸ hnd.1)]
      subst hk
      rw [Env.get_set_self]
      simpa using h
    · simp only [Env.get, hk, if_neg hk] at h
      rw [Env.assign_cons]
      exact ih _ hnd.2 h

mutual

/-- JavaScript `String(v)` coercion as used by template substitution. -/
def valToString : Val → String
  | .str s => s
  | .num n => toString n
  | .bool b => if b then "true" else "false"
  | .undef => "undefined"
  | .arr vs => String.intercalate "," (arrStrings vs)

/-- Array elements under `String`: join with commas; `undefined` elements
render as the empty string. -/
def arrStrings : List Val → List String
  | [] => []
  | .undef :: rest => "" :: arrStrings rest
  | v :: rest => valToString v :: arrStrings rest

end

/-- JavaScript truthiness of `env[conditionVar]` for the values of our model:
absent keys and `undefined` are falsy, as are `0`, the empty string and
`false`; arrays are always truthy. -/
def truthy : Option Val → Bool
  | none => false
  | some (.str s) => !(s == "")
  | some (.num n) => !(n == 0)
  | some (.bool b) => b
  | some .undef => false
  | some (.arr _) => true

/-- The character class of the regex `\w`. -/
def isWordChar (c : Char) : Bool := c.isAlpha || c.isDigit || c == '_'

/-- Core of `template.replace(/\$\x7b(\w+)\x7d/g, ...)`: scan the character
list left to right; a placeholder is a dollar sign, an opening brace, one or
more word characters, and a closing brace; it is replaced by `repl` applied
to the name; anything else is copied, and replacement text is not rescanned. -/
def substChars (repl : String → String) : Nat → List Char → List Char
  | _, [] => []
  | 0, l => l
  | f + 1, '$' :: '\x7b' :: rest2 =>
    let nm := rest2.takeWhile isWordChar
    match rest2.dropWhile isWordChar with
    | '\x7d' :: rest4 =>
      if nm.isEmpty then '$' :: substChars repl f ('\x7b' :: rest2)
      else (repl (String.mk nm)).data ++ substChars repl f rest4
    | _ => '$' :: substChars repl f ('\x7b' :: rest2)
  | f + 1, c :: rest => c :: substChars repl f rest

/-- The `substitute` helper of the interpreter: replace each `$\x7bname\x7d`
placeholder by `String(env[name])` when `env[name] !== undefined`, and by the
empty string otherwise.  Every scanner step consumes at least one input
character, so a step budget of the template length never runs out. -/
def substitute (template : String) (env : Env) : String :=
  String.mk (substChars (fun nm =>
    match Env.get env nm with
    | some Val.undef => ""
    | some v => valToString v
    | none => "") template.data.length template.data)

/-- An output spec of a `define` routine: a variable-reference string, a
literal object with `type`, `value` and `optional` fields, or any other
JSON value (neither string nor object), which the handler ignores. -/
inductive DefineSpec where
  | ref (s : String)
  | lit (ty : String) (value : Val) (optional : Bool)
  | other

/-- The tagged routine model. `other` stands for a routine object whose
`type` tag is none of the six known kinds, reachable on unvalidated input
and sent to the dispatcher's default branch. -/
inductive Routine where
  | prompt (passthrough : List String) (dev_msg : String) (user_msg : String)
      (outputs : List (String × String))
  | code (passthrough : List String) (codeStr : String)
  | define (passthrough : List String) (outputs : List (String × DefineSpec))
  | ifR (passthrough : List String) (condition : String) (thenName : String)
      (elseName : String)
  | compose (passthrough : List String) (routines : List String)
  | join (passthrough : List String) (routines : List String)
  | other (ty : String)

/-- The `type` tag of a routine as dispatched on by `executeRoutine`. -/
def Routine.kind : Routine → String
  | .prompt .. => "prompt"
  | .code .. => "code"
  | .define .. => "define"
  | .ifR .. => "if"
  | .compose .. => "compose"
  | .join .. => "join"
  | .other ty => ty

/-- A program: the routine mapping plus the entry routine name (`main`);
an absent `main` field is modelled as the empty string, which is exactly
what the run entry point's falsiness check rejects. -/
structure Program where
  routines : List (String × Routine)
  main : String

/-- Lookup in the routine mapping (`this.routines[routineName]`). -/
def findRoutine : List (String × Routine) → String → Option Routine
  | [], _ => none
  | (k, r) :: rest, name => if k = name then some r else findRoutine rest name

def lookupRoutine (p : Program) (name : String) : Option Routine :=
  findRoutine p.routines name

/-- Trace nodes, one variant per routine kind, mirroring the `Trace` union
of types.ts: every node carries the routine name, the input snapshot and the
outputs; `prompt` adds the exact message pair sent, `if` the branch taken
and the single subtrace, `compose` and `join` the ordered subtrace lists. -/
inductive Trace where
  | prompt (routine : String) (inputs : Env) (dev_msg : String)
      (user_msg : String) (outputs : Env)
  | code (routine : String) (inputs : Env) (outputs : Env)
  | define (routine : String) (inputs : Env) (outputs : Env)
  | ifT (routine : String) (inputs : Env) (branch_taken : String)
      (subtrace : Trace) (outputs : Env)
  | compose (routine : String) (inputs : Env) (subtraces : List Trace)
      (outputs : Env)
  | join (routine : String) (inputs : Env) (subtraces : List Trace)
      (outputs : Env)

def Trace.routineName : Trace → String
  | .prompt n _ _ _ _ => n
  | .code n _ _ => n
  | .define n _ _ => n
  | .ifT n _ _ _ _ => n
  | .compose n _ _ _ => n
  | .join n _ _ _ => n

def Trace.inputs : Trace → Env
  | .prompt _ i _ _ _ => i
  | .code _ i _ => i
  | .define _ i _ => i
  | .ifT _ i _ _ _ => i
  | .compose _ i _ _ => i
  | .join _ i _ _ => i

def Trace.kind : Trace → String
  | .prompt .. => "prompt"
  | .code .. => "code"
  | .define .. => "define"
  | .ifT .. => "if"
  | .compose .. => "compose"
  | .join .. => "join"

/-- The fatal errors thrown by the interpreter, plus `fuel`, the artifact of
bounding the (possibly nonterminating) recursion of the source by a step
budget. -/
inductive Err where
  | routineNotFound (name : String)
  | unknownRoutineKind (kind : String)
  | missingBranch (branch : String)
  | missingMain
  | llmFailure (msg : String)
  | fuel
deriving DecidableEq

/-- Result of evaluating a `code` expression (the external expression
evaluator of the spec): a key-value mapping, a non-mapping value, or a
thrown error carrying its message. -/
inductive CodeResult where
  | obj (m : Env)
  | nonObj (v : Val)
  | throws (msg : String)

/-- Result of a generative service call: a returned mapping, or a thrown
error carrying its message.  The source's `callLLM` has no surrounding
try/catch in `handlePrompt`, so the failure propagates. -/
inductive LLMResult where
  | ok (m : Env)
  | throws (msg : String)

/-- The generative service contract: developer message, user message and
output spec to a returned mapping, or a failure. -/
abbrev LLM := String → String → List (String × String) → LLMResult

abbrev CodeEval := String → Env → CodeResult

abbrev Step := String → Env → Except Err (Env × Trace)

/-- Model of `Interpreter.handleRoutine`: copy every passthrough name present in the
environment into the outputs object, in list order. -/
def handleRoutine (passthrough : List String) (env outputs : Env) : Env :=
  match passthrough with
  | [] => outputs
  | nm :: rest =>
    handleRoutine rest env
      (match Env.get env nm with
       | some v => Env.set outputs nm v
       | none => outputs)

/-- Model of `Interpreter.handlePrompt`.  The service call is not wrapped
in any try/catch: a service failure aborts the prompt call and propagates
fatally to the caller, unlike the locally-caught `code` failures. -/
def handlePrompt (L : LLM) (name : String) (passthrough : List String)
    (dev_msg user_msg : String) (outSpec : List (String × String))
    (env : Env) : Except Err (Env × Trace) :=
  let outputs0 := handleRoutine passthrough env []
  let userMsg := substitute user_msg env
  match L dev_msg userMsg outSpec with
  | .throws msg => .error (.llmFailure msg)
  | .ok llmOutputs =>
    let outputs := Env.assign outputs0 llmOutputs
    .ok (outputs, Trace.prompt name env dev_msg userMsg outputs)

/-- Model of `Interpreter.handleCode`: evaluate the expression; a non-mapping result
raises, and everything raised is caught locally and turned into an `error`
output carrying the message. -/
def handleCode (E : CodeEval) (name : String) (passthrough : List String)
    (codeStr : String) (env : Env) : Env × Trace :=
  let outputs0 := handleRoutine passthrough env []
  let outputs :=
    match E codeStr env with
    | .obj m => Env.assign outputs0 m
    | .nonObj _ => Env.set outputs0 "error" (Val.str "Code did not return an object.")
    | .throws msg => Env.set outputs0 "error" (Val.str msg)
  (outputs, Trace.code name env outputs)

/-- The check `spec.endsWith('?')`: the string's last character is the
question mark. -/
def endsWithQmark (s : String) : Bool :=
  match s.data.getLast? with
  | some c => c == '?'
  | none => false

/-- The expression `spec.slice(0, -1)`: the string without its last
character. -/
def dropLastChar (s : String) : String := String.mk s.data.dropLast

/-- One output entry of `Interpreter.handleDefine`, folded over the entries
in declaration order. -/
def defineStep (env : Env) (acc : Env) (kv : String × DefineSpec) : Env :=
  match kv.2 with
  | .ref s =>
    let isOptional := endsWithQmark s
    let inputName := if isOptional then dropLastChar s else s
    match Env.get env inputName with
    | some v => Env.set acc kv.1 v
    | none => if isOptional then acc else Env.set acc kv.1 Val.undef
  | .lit _ v opt =>
    match opt, v with
    | true, .undef => acc
    | _, _ => Env.set acc kv.1 v
  | .other => acc

/-- The `for key in routine.outputs` loop of `Interpreter.handleDefine`. -/
def defineLoop (env : Env) (specs : List (String × DefineSpec))
    (outputs : Env) : Env :=
  match specs with
  | [] => outputs
  | kv :: rest => defineLoop env rest (defineStep env outputs kv)

/-- Model of `Interpreter.handleDefine`. -/
def handleDefine (name : String) (passthrough : List String)
    (specs : List (String × DefineSpec)) (env : Env) : Env × Trace :=
  let outputs := defineLoop env specs (handleRoutine passthrough env [])
  (outputs, Trace.define name env outputs)

/-- Model of `Interpreter.handleIf`: pick the branch by truthiness of the condition
variable, fail fatally when the selected branch name is falsy, else run the
branch on the same environment and merge its outputs over the passthrough. -/
def handleIf (step : Step) (name : String) (passthrough : List String)
    (condition thenName elseName : String) (env : Env) :
    Except Err (Env × Trace) :=
  let outputs0 := handleRoutine passthrough env []
  let branch := if truthy (Env.get env condition) then "then" else "else"
  let branchRoutineName :=
    if truthy (Env.get env condition) then thenName else elseName
  if branchRoutineName = "" then
    .error (.missingBranch branch)
  else
    match step branchRoutineName env with
    | .error e => .error e
    | .ok (branchOutputs, subtrace) =>
      let outputs := Env.assign outputs0 branchOutputs
      .ok (outputs, Trace.ifT name env branch subtrace outputs)

/-- The loop of `Interpreter.handleCompose`: thread the whole output of each
step in as the whole environment of the next, collecting subtraces. -/
def execList (step : Step) : List String → Env → Except Err (Env × List Trace)
  | [], currentEnv => .ok (currentEnv, [])
  | rn :: rest, currentEnv =>
    match step rn currentEnv with
    | .error e => .error e
    | .ok (out, tr) =>
      match execList step rest out with
      | .error e => .error e
      | .ok (fin, trs) => .ok (fin, tr :: trs)

/-- The loop of `Interpreter.handleJoin`: run every branch on the original
environment and `Object.assign` the outputs together in list order. -/
def joinList (step : Step) (env : Env) :
    List String → Env → Except Err (Env × List Trace)
  | [], acc => .ok (acc, [])
  | rn :: rest, acc =>
    match step rn env with
    | .error e => .error e
    | .ok (out, tr) =>
      match joinList step env rest (Env.assign acc out) with
      | .error e => .error e
      | .ok (fin, trs) => .ok (fin, tr :: trs)

/-- Model of `Interpreter.handleCompose`.  The routine's passthrough list is accepted
(as the routine object is in the source) but never consulted. -/
def handleCompose (step : Step) (name : String) (passthrough : List String)
    (rs : List String) (env : Env) : Except Err (Env × Trace) :=
  match execList step rs env with
  | .error e => .error e
  | .ok (out, trs) => .ok (out, Trace.compose name env trs out)

/-- Model of `Interpreter.handleJoin`.  The routine's passthrough list is accepted
but never consulted. -/
def handleJoin (step : Step) (name : String) (passthrough : List String)
    (rs : List String) (env : Env) : Except Err (Env × Trace) :=
  match joinList step env rs [] with
  | .error e => .error e
  | .ok (out, trs) => .ok (out, Trace.join name env trs out)

/-- Model of `Interpreter.executeRoutine`: look the routine up, build the trace
node's common fields, and dispatch on the kind tag.  Recursion is bounded
by an explicit fuel; the source recursion can diverge on cyclic programs. -/
def executeRoutine (L : LLM) (E : CodeEval) (p : Program) :
    Nat → String → Env → Except Err (Env × Trace)
  | 0, _, _ => .error .fuel
  | fuel + 1, name, env =>
    match lookupRoutine p name with
    | none => .error (.routineNotFound name)
    | some r =>
      match r with
      | .prompt pt dev user os => handlePrompt L name pt dev user os env
      | .code pt c => .ok (handleCode E name pt c env)
      | .define pt specs => .ok (handleDefine name pt specs env)
      | .ifR pt cond thn els =>
        handleIf (fun rn e => executeRoutine L E p fuel rn e) name pt cond thn els env
      | .compose pt rs =>
        handleCompose (fun rn e => executeRoutine L E p fuel rn e) name pt rs env
      | .join pt rs =>
        handleJoin (fun rn e => executeRoutine L E p fuel rn e) name pt rs env
      | .other ty => .error (.unknownRoutineKind ty)

/-- Model of `Interpreter.run`: require a truthy entry routine name, then execute it.
The outputs/trace pair is returned; the source also echoes the (constant)
program alongside. -/
def run (L : LLM) (E : CodeEval) (p : Program) (fuel : Nat)
    (initialEnv : Env) : Except Err (Env × Trace) :=
  if p.main = "" then .error .missingMain
  else executeRoutine L E p fuel p.main initialEnv

/-- Specification of a sequential pipeline: the routines run in list order,
each step's whole output mapping is the next step's whole environment, the
final output is the last step's output (the initial environment when the
list is empty), and there is one trace per step, in order. -/
def Chained (step : Step) : List String → Env → Env → List Trace → Prop
  | [], env, out, ts => out = env ∧ ts = []
  | rn :: rest, env, out, ts =>
    ∃ o t ts2, step rn env = .ok (o, t) ∧ ts = t :: ts2 ∧
      Chained step rest o out ts2

/-- Specification of a fan-out merge: every routine runs against the same
original environment, outputs are merged onto the accumulator in list order
(later branches overwriting earlier ones), and there is one trace per
branch, in order. -/
def Joined (step : Step) (env : Env) : List String → Env → Env → List Trace → Prop
  | [], acc, out, ts => out = acc ∧ ts = []
  | rn :: rest, acc, out, ts =>
    ∃ o t ts2, step rn env = .ok (o, t) ∧ ts = t :: ts2 ∧
      Joined step env rest (Env.assign acc o) out ts2

theorem execList_ok_iff (step : Step) (rs : List String) (env out : Env)
    (ts : List Trace) :
    execList step rs env = .ok (out, ts) ↔ Chained step rs env out ts := by
  induction rs generalizing env ts with
  | nil =>
    simp only [execList, Chained]
    constructor
    · intro h
      injection h with h
      injection h with h1 h2
      exact ⟨h1.symm, h2.symm⟩
    · rintro ⟨h1, h2⟩
      rw [h1, h2]
  | cons rn rest ih =>
    constructor
    · intro hE
      cases h : step rn env with
      | error e =>
        simp only [execList, h] at hE
        exact Except.noConfusion hE
      | ok pr =>
        obtain ⟨o, t⟩ := pr
        cases h2 : execList step rest o with
        | error e =>
          simp only [execList, h, h2] at hE
          exact Except.noConfusion hE
        | ok pr2 =>
          obtain ⟨fin, trs⟩ := pr2
          simp only [execList, h, h2, Except.ok.injEq, Prod.mk.injEq] at hE
          exact ⟨o, t, trs, h, hE.2.symm,
            (ih o trs).mp (by rw [h2, hE.1])⟩
    · rintro ⟨o, t, ts2, hok, hts, hch⟩
      have h2 : execList step rest o = .ok (out, ts2) := (ih o ts2).mpr hch
      simp only [execList, hok, h2, hts]

theorem joinList_ok_iff (step : Step) (env : Env) (rs : List String)
    (acc out : Env) (ts : List Trace) :
    joinList step env rs acc = .ok (out, ts) ↔ Joined step env rs acc out ts := by
  induction rs generalizing acc ts with
  | nil =>
    simp only [joinList, Joined]
    constructor
    · intro h
      injection h with h
      injection h with h1 h2
      exact ⟨h1.symm, h2.symm⟩
    · rintro ⟨h1, h2⟩
      rw [h1, h2]
  | cons rn rest ih =>
    constructor
    · intro hE
      cases h : step rn env with
      | error e =>
        simp only [joinList, h] at hE
        exact Except.noConfusion hE
      | ok pr =>
        obtain ⟨o, t⟩ := pr
        cases h2 : joinList step env rest (Env.assign acc o) with
        | error e =>
          simp only [joinList, h, h2] at hE
          exact Except.noConfusion hE
        | ok pr2 =>
          obtain ⟨fin, trs⟩ := pr2
          simp only [joinList, h, h2, Except.ok.injEq, Prod.mk.injEq] at hE
          exact ⟨o, t, trs, h, hE.2.symm,
            (ih (Env.assign acc o) trs).mp (by rw [h2, hE.1])⟩
    · rintro ⟨o, t, ts2, hok, hts, hch⟩
      have h2 : joinList step env rest (Env.assign acc o) = .ok (out, ts2) :=
        (ih (Env.assign acc o) ts2).mpr hch
      simp only [joinList, hok, h2, hts]

theorem handleRoutine_not_mem (pt : List String) (env acc : Env) (k : String)
    (h : k ∉ pt) : Env.get (handleRoutine pt env acc) k = Env.get acc k := by
  induction pt generalizing acc with
  | nil => rfl
  | cons p rest ih =>
    simp only [List.mem_cons] at h
    push_neg at h
    simp only [handleRoutine]
    rw [ih _ h.2]
    cases hv : Env.get env p with
    | none => rfl
    | some v => exact Env.get_set_ne _ _ _ _ (fun he => h.1 he.symm)

/-- A passthrough name present in the input environment makes it into the
outputs, carrying its environment value. -/
theorem handleRoutine_mem (pt : List String) (env acc : Env) (k : String)
    (v : Val) (hm : k ∈ pt) (hv : Env.get env k = some v) :
    Env.get (handleRoutine pt env acc) k = some v := by
  induction pt generalizing acc with
  | nil => cases hm
  | cons p rest ih =>
    by_cases hr : k ∈ rest
    · simp only [handleRoutine]
      exact ih _ hr
    · have hp : p = k := by
        rcases List.mem_cons.mp hm with h | h
        · exact h.symm
        · exact absurd h hr
      subst hp
      simp only [handleRoutine, hv]
      rw [handleRoutine_not_mem _ _ _ _ hr]
      exact Env.get_set_self _ _ _

/-- The entry a single `define` output spec contributes, if any: the
specification-facing reading of one iteration of the loop. -/
def defineEmit (env : Env) (kv : String × DefineSpec) : Option (String × Val) :=
  match kv.2 with
  | .ref s =>
    let isOptional := endsWithQmark s
    let inputName := if isOptional then dropLastChar s else s
    match Env.get env inputName with
    | some v => some (kv.1, v)
    | none => if isOptional then none else some (kv.1, Val.undef)
  | .lit _ v opt =>
    match opt, v with
    | true, .undef => none
    | _, _ => some (kv.1, v)
  | .other => none

theorem defineStep_eq_emit (env acc : Env) (kv : String × DefineSpec) :
    defineStep env acc kv =
      match defineEmit env kv with
      | some p => Env.set acc p.1 p.2
      | none => acc := by
  obtain ⟨k, spec⟩ := kv
  cases spec with
  | ref s =>
    simp only [defineStep, defineEmit]
    cases hv : Env.get env (if endsWithQmark s = true then dropLastChar s else s) with
    | some v => simp [hv]
    | none =>
      by_cases ho : endsWithQmark s <;> simp [hv, ho]
  | lit ty v opt =>
    cases opt <;> cases v <;> rfl
  | other => rfl

/-- The define loop is the merge, onto its starting mapping, of the entries
its specs emit, in declaration order. -/
theorem defineLoop_eq_assign (env : Env) (specs : List (String × DefineSpec))
    (base : Env) :
    defineLoop env specs base =
      Env.assign base (specs.filterMap (defineEmit env)) := by
  induction specs generalizing base with
  | nil => rfl
  | cons kv rest ih =>
    simp only [defineLoop, List.filterMap_cons]
    rw [defineStep_eq_emit]
    cases he : defineEmit env kv with
    | none => exact ih _
    | some p => rw [Env.assign_cons]; exact ih _

theorem chained_length (step : Step) (rs : List String) (env out : Env)
    (ts : List Trace) (h : Chained step rs env out ts) :
    ts.length = rs.length := by
  induction rs generalizing env ts with
  | nil => obtain ⟨_, h2⟩ := h; simp [h2]
  | cons rn rest ih =>
    obtain ⟨o, t, ts2, _, hts, hch⟩ := h
    subst hts
    simp [ih _ _ hch]

theorem joined_length (step : Step) (env : Env) (rs : List String)
    (acc out : Env) (ts : List Trace) (h : Joined step env rs acc out ts) :
    ts.length = rs.length := by
  induction rs generalizing acc ts with
  | nil => obtain ⟨_, h2⟩ := h; simp [h2]
  | cons rn rest ih =>
    obtain ⟨o, t, ts2, _, hts, hch⟩ := h
    subst hts
    simp [ih _ _ hch]

/-- A generative service stub for concrete runs: echoes each requested
output key as its own string value. -/
def L0 : LLM := fun _dev _user os => .ok (os.map (fun kv => (kv.1, Val.str kv.1)))

/-- An expression evaluator stub for concrete runs: every expression
throws. -/
def E0 : CodeEval := fun _ _ => CodeResult.throws "boom"

def defA : Routine :=
  .define [] [("x", .lit "number" (.num 1) false),
    ("k", .lit "string" (.str "a") false)]

def defB : Routine :=
  .define [] [("k", .lit "string" (.str "b") false), ("y", .ref "x")]

/-- A concrete program exercising compose and join over two define
routines that share the output key `k`. -/
def testProg : Program :=
  { routines := [("A", defA), ("B", defB), ("C", .compose [] ["A", "B"]),
      ("J", .join [] ["A", "B"])], main := "C" }

def outA : Env := [("x", Val.num 1), ("k", Val.str "a")]

def outB : Env := [("k", Val.str "b"), ("y", Val.num 1)]

/-- C1: a compose routine executes its listed routines in order, the entire
output mapping of each step is the entire input environment of the next
(replacing it, never merged with the original environment), the compose
call's outputs are exactly the last step's outputs, and the trace holds one
child trace per step in list order. -/
theorem compose_pipeline_spec (L : LLM) (E : CodeEval) (p : Program) (f : Nat)
    (name : String) (env out : Env) (tr : Trace) (pt rs : List String)
    (hl : lookupRoutine p name = some (.compose pt rs)) :
    (executeRoutine L E p (f + 1) name env = .ok (out, tr) →
      ∃ ts, tr = Trace.compose name env ts out ∧ ts.length = rs.length ∧
        Chained (fun rn e => executeRoutine L E p f rn e) rs env out ts)
    ∧ (∀ ts, Chained (fun rn e => executeRoutine L E p f rn e) rs env out ts →
      executeRoutine L E p (f + 1) name env =
        .ok (out, Trace.compose name env ts out)) := by
  constructor
  · intro hE
    simp only [executeRoutine, hl] at hE
    cases h : execList (fun rn e => executeRoutine L E p f rn e) rs env with
    | error e =>
      simp only [handleCompose, h] at hE
      exact Except.noConfusion hE
    | ok pr =>
      obtain ⟨o, trs⟩ := pr
      simp only [handleCompose, h, Except.ok.injEq, Prod.mk.injEq] at hE
      obtain ⟨ho, htr⟩ := hE
      subst ho
      have hch := (execList_ok_iff _ rs env _ trs).mp h
      exact ⟨trs, htr.symm, chained_length _ _ _ _ _ hch, hch⟩
  · intro ts hch
    have h : execList (fun rn e => executeRoutine L E p f rn e) rs env =
        .ok (out, ts) := (execList_ok_iff _ _ _ _ _).mpr hch
    simp only [executeRoutine, hl, handleCompose, h]

/-- Witness for C1 on the concrete program: compose of [A, B] from the empty
environment; B runs on exactly A's outputs and the final outputs are B's. -/
theorem compose_pipeline_spec_witness :
    ∃ ts, (Trace.compose "C" [] [Trace.define "A" [] outA,
        Trace.define "B" outA outB] outB) = Trace.compose "C" [] ts outB ∧
      ts.length = (["A", "B"] : List String).length ∧
      Chained (fun rn e => executeRoutine L0 E0 testProg 1 rn e)
        ["A", "B"] [] outB ts :=
  (compose_pipeline_spec L0 E0 testProg 1 "C" [] outB
    (Trace.compose "C" [] [Trace.define "A" [] outA,
      Trace.define "B" outA outB] outB) [] ["A", "B"] (by rfl)).1 (by rfl)

/-- C2: a join routine executes every listed routine against the same
original input environment, merges the branch outputs in list order with the
later branch winning on key collisions (`Env.get_assign`-style: a key of the
later mapping keeps the later mapping's value), and the trace holds one
child trace per branch in list order. -/
theorem join_merge_spec (L : LLM) (E : CodeEval) (p : Program) (f : Nat)
    (name : String) (env out : Env) (tr : Trace) (pt rs : List String)
    (hl : lookupRoutine p name = some (.join pt rs)) :
    (executeRoutine L E p (f + 1) name env = .ok (out, tr) →
      ∃ ts, tr = Trace.join name env ts out ∧ ts.length = rs.length ∧
        Joined (fun rn e => executeRoutine L E p f rn e) env rs [] out ts)
    ∧ (∀ ts, Joined (fun rn e => executeRoutine L E p f rn e) env rs [] out ts →
      executeRoutine L E p (f + 1) name env =
        .ok (out, Trace.join name env ts out))
    ∧ (∀ (a b : Env) (k : String) (v : Val), (b.map Prod.fst).Nodup →
      Env.get b k = some v → Env.get (Env.assign a b) k = some v) := by
  refine ⟨?_, ?_, fun a b k v hnd hv => Env.get_assign_mem a b k v hnd hv⟩
  · intro hE
    simp only [executeRoutine, hl] at hE
    cases h : joinList (fun rn e => executeRoutine L E p f rn e) env rs [] with
    | error e =>
      simp only [handleJoin, h] at hE
      exact Except.noConfusion hE
    | ok pr =>
      obtain ⟨o, trs⟩ := pr
      simp only [handleJoin, h, Except.ok.injEq, Prod.mk.injEq] at hE
      obtain ⟨ho, htr⟩ := hE
      subst ho
      have hch := (joinList_ok_iff _ env rs [] _ trs).mp h
      exact ⟨trs, htr.symm, joined_length _ _ _ _ _ _ hch, hch⟩
  · intro ts hch
    have h : joinList (fun rn e => executeRoutine L E p f rn e) env rs [] =
        .ok (out, ts) := (joinList_ok_iff _ _ _ _ _ _).mpr hch
    simp only [executeRoutine, hl, handleJoin, h]

def outBJ : Env := [("k", Val.str "b"), ("y", Val.undef)]

def outJ : Env := [("x", Val.num 1), ("k", Val.str "b"), ("y", Val.undef)]

/-- Witness for C2 on the concrete program: join of [A, B] from the empty
environment; both branches see the empty environment, their traces appear in
order, and B's value for the shared key `k` wins. -/
theorem join_merge_spec_witness :
    (∃ ts, (Trace.join "J" [] [Trace.define "A" [] outA,
        Trace.define "B" [] outBJ] outJ) = Trace.join "J" [] ts outJ ∧
      ts.length = (["A", "B"] : List String).length ∧
      Joined (fun rn e => executeRoutine L0 E0 testProg 1 rn e)
        [] ["A", "B"] [] outJ ts)
    ∧ Env.get (Env.assign outA outBJ) "k" = some (Val.str "b") :=
  ⟨(join_merge_spec L0 E0 testProg 1 "J" [] outJ
      (Trace.join "J" [] [Trace.define "A" [] outA,
        Trace.define "B" [] outBJ] outJ) [] ["A", "B"] (by rfl)).1 (by rfl),
    (join_merge_spec L0 E0 testProg 1 "J" [] outJ
      (Trace.join "J" [] [Trace.define "A" [] outA,
        Trace.define "B" [] outBJ] outJ) [] ["A", "B"] (by rfl)).2.2
      outA outBJ "k" (Val.str "b") (by decide) (by rfl)⟩

/-- Shape of a successful `handleIf` call: the branch picked by truthiness
ran on the same environment, its outputs were merged over the passthrough
base, and its trace is the single child. -/
theorem handleIf_ok_shape (step : Step) (name : String) (pt : List String)
    (cond thn els : String) (env out : Env) (tr : Trace)
    (hE : handleIf step name pt cond thn els env = .ok (out, tr)) :
    ∃ bo st,
      step (if truthy (Env.get env cond) then thn else els) env = .ok (bo, st) ∧
      out = Env.assign (handleRoutine pt env []) bo ∧
      tr = Trace.ifT name env
        (if truthy (Env.get env cond) then "then" else "else") st out := by
  simp only [handleIf] at hE
  cases hb : truthy (Env.get env cond) with
  | true =>
    rw [hb] at hE
    simp only [show (true = true) = True from by simp, if_true] at hE ⊢
    split at hE
    · exact Except.noConfusion hE
    · cases hs : step thn env with
      | error e =>
        rw [hs] at hE
        simp at hE
      | ok pr =>
        obtain ⟨bo, st⟩ := pr
        rw [hs] at hE
        simp only [Except.ok.injEq, Prod.mk.injEq] at hE
        exact ⟨bo, st, rfl, hE.1.symm, by rw [← hE.2, hE.1]⟩
  | false =>
    rw [hb] at hE
    simp only [show (false = true) = False from by simp, if_false] at hE ⊢
    split at hE
    · exact Except.noConfusion hE
    · cases hs : step els env with
      | error e =>
        rw [hs] at hE
        simp at hE
      | ok pr =>
        obtain ⟨bo, st⟩ := pr
        rw [hs] at hE
        simp only [Except.ok.injEq, Prod.mk.injEq] at hE
        exact ⟨bo, st, rfl, hE.1.symm, by rw [← hE.2, hE.1]⟩

/-- C3: passthrough is applied by the prompt, code, define and if handlers
only — the compose and join handlers ignore the routine's passthrough list
entirely.  For the four kinds, every passthrough name present in the input
environment is copied unchanged into the outputs before the kind-specific
output is computed, the kind-specific output being merged on top afterwards
(and therefore able to overwrite a passthrough key, as the final concrete
conjunct exhibits). -/
theorem passthrough_application_spec :
    (∀ (pt : List String) (env outs : Env) (k : String) (v : Val),
      k ∈ pt → Env.get env k = some v →
      Env.get (handleRoutine pt env outs) k = some v)
    ∧ (∀ (step : Step) (name : String) (pt pt2 rs : List String) (env : Env),
      handleCompose step name pt rs env = handleCompose step name pt2 rs env)
    ∧ (∀ (step : Step) (name : String) (pt pt2 rs : List String) (env : Env),
      handleJoin step name pt rs env = handleJoin step name pt2 rs env)
    ∧ (∀ (L : LLM) (name : String) (pt : List String) (dev user : String)
        (os : List (String × String)) (env out : Env) (tr : Trace),
      handlePrompt L name pt dev user os env = .ok (out, tr) → ∃ m,
      out = Env.assign (handleRoutine pt env []) m)
    ∧ (∀ (E : CodeEval) (name : String) (pt : List String) (c : String)
        (env : Env), ∃ m,
      (handleCode E name pt c env).1 = Env.assign (handleRoutine pt env []) m)
    ∧ (∀ (name : String) (pt : List String)
        (specs : List (String × DefineSpec)) (env : Env), ∃ m,
      (handleDefine name pt specs env).1 = Env.assign (handleRoutine pt env []) m)
    ∧ (∀ (step : Step) (name : String) (pt : List String)
        (cond thn els : String) (env out : Env) (tr : Trace),
      handleIf step name pt cond thn els env = .ok (out, tr) →
      ∃ m, out = Env.assign (handleRoutine pt env []) m)
    ∧ Env.get ((handleDefine "d" ["k"]
        [("k", DefineSpec.lit "number" (Val.num 2) false)]
        [("k", Val.num 1)]).1) "k" = some (Val.num 2) := by
  refine ⟨fun pt env outs k v hm hv => handleRoutine_mem pt env outs k v hm hv,
    fun _ _ _ _ _ _ => rfl, fun _ _ _ _ _ _ => rfl, ?_, ?_, ?_, ?_, by rfl⟩
  · intro L name pt dev user os env out tr hE
    simp only [handlePrompt] at hE
    cases hL : L dev (substitute user env) os with
    | throws msg =>
      simp only [hL] at hE
      exact Except.noConfusion hE
    | ok m =>
      simp only [hL, Except.ok.injEq, Prod.mk.injEq] at hE
      exact ⟨m, hE.1.symm⟩
  · intro E name pt c env
    cases hE : E c env with
    | obj m => exact ⟨m, by simp only [handleCode, hE]⟩
    | nonObj v =>
      exact ⟨[("error", Val.str "Code did not return an object.")],
        by simp only [handleCode, hE]; rfl⟩
    | throws msg =>
      exact ⟨[("error", Val.str msg)], by simp only [handleCode, hE]; rfl⟩
  · intro name pt specs env
    exact ⟨specs.filterMap (defineEmit env), defineLoop_eq_assign env specs _⟩
  · intro step name pt cond thn els env out tr hE
    obtain ⟨bo, st, _, ho, _⟩ :=
      handleIf_ok_shape step name pt cond thn els env out tr hE
    exact ⟨bo, ho⟩

/-- Witness for C3: a passthrough name present in the environment is copied
through unchanged by the shared passthrough sub-step. -/
theorem passthrough_application_spec_witness :
    Env.get (handleRoutine ["k"] [("k", Val.num 7)] []) "k" = some (Val.num 7) :=
  passthrough_application_spec.1 ["k"] [("k", Val.num 7)] [] "k" (Val.num 7)
    (by decide) (by rfl)

/-- A one-routine program whose single code routine always throws under the
evaluator stub `E0`. -/
def codeProg : Program :=
  { routines := [("K", .code [] "boomCall")], main := "K" }

/-- C4: a code routine never propagates an evaluation failure: execution
always returns ok, and when the expression throws, or produces a value that
is not a key-value mapping, the outputs are the passthrough base extended
with the single key `error` holding the failure description — exactly
`[(error, message)]` when the passthrough list is empty. -/
theorem code_error_recovery_spec (L : LLM) (E : CodeEval) (p : Program)
    (f : Nat) (name : String) (env : Env) (pt : List String) (c : String)
    (hl : lookupRoutine p name = some (.code pt c)) :
    (∃ out tr, executeRoutine L E p (f + 1) name env = .ok (out, tr))
    ∧ (∀ msg, E c env = .throws msg →
      executeRoutine L E p (f + 1) name env =
        .ok (Env.set (handleRoutine pt env []) "error" (Val.str msg),
          Trace.code name env
            (Env.set (handleRoutine pt env []) "error" (Val.str msg))))
    ∧ (∀ v, E c env = .nonObj v →
      executeRoutine L E p (f + 1) name env =
        .ok (Env.set (handleRoutine pt env []) "error"
            (Val.str "Code did not return an object."),
          Trace.code name env (Env.set (handleRoutine pt env []) "error"
            (Val.str "Code did not return an object."))))
    ∧ (∀ msg, pt = [] → E c env = .throws msg →
      executeRoutine L E p (f + 1) name env =
        .ok ([("error", Val.str msg)],
          Trace.code name env [("error", Val.str msg)])) := by
  refine ⟨?_, ?_, ?_, ?_⟩
  · cases hE : E c env with
    | obj m =>
      exact ⟨Env.assign (handleRoutine pt env []) m,
        Trace.code name env (Env.assign (handleRoutine pt env []) m),
        by simp only [executeRoutine, hl, handleCode, hE]⟩
    | nonObj v =>
      exact ⟨Env.set (handleRoutine pt env []) "error"
          (Val.str "Code did not return an object."),
        Trace.code name env (Env.set (handleRoutine pt env []) "error"
          (Val.str "Code did not return an object.")),
        by simp only [executeRoutine, hl, handleCode, hE]⟩
    | throws msg =>
      exact ⟨Env.set (handleRoutine pt env []) "error" (Val.str msg),
        Trace.code name env (Env.set (handleRoutine pt env []) "error"
          (Val.str msg)),
        by simp only [executeRoutine, hl, handleCode, hE]⟩
  · intro msg hE
    simp only [executeRoutine, hl, handleCode, hE]
  · intro v hE
    simp only [executeRoutine, hl, handleCode, hE]
  · intro msg hpt hE
    subst hpt
    simp only [executeRoutine, hl, handleCode, hE, handleRoutine]
    rfl

/-- Witness for C4: on the concrete one-routine program whose expression
throws, the run yields outputs exactly `[(error, boom)]` and completes. -/
theorem code_error_recovery_spec_witness :
    executeRoutine L0 E0 codeProg (0 + 1) "K" [] =
      .ok ([("error", Val.str "boom")],
        Trace.code "K" [] [("error", Val.str "boom")]) :=
  (code_error_recovery_spec L0 E0 codeProg 0 "K" [] [] "boomCall"
    (by rfl)).2.2.2 "boom" rfl (by rfl)

/-- The define loop processes a concatenation by processing the two parts
in sequence. -/
theorem defineLoop_append (env : Env) (l1 l2 : List (String × DefineSpec))
    (base : Env) :
    defineLoop env (l1 ++ l2) base = defineLoop env l2 (defineLoop env l1 base) := by
  induction l1 generalizing base with
  | nil => rfl
  | cons kv rest ih =>
    simp only [List.cons_append, defineLoop]
    exact ih _

/-- C5: resolution of `define` output entries.  In general the outputs are
the passthrough base merged with the entries the specs emit in order; on a
single-entry routine without passthrough: a required reference to a missing
name still emits the key, holding the explicit absent value `undef`; an
optional reference to a missing name omits the key; a present reference
copies the value through unchanged whether or not it is optional; a literal
marked optional whose value is absent omits the key; any other literal
emits its value regardless of the declared type tag. -/
theorem define_resolution_spec :
    (∀ (name : String) (pt : List String)
      (specs : List (String × DefineSpec)) (env : Env),
      (handleDefine name pt specs env).1 =
        Env.assign (handleRoutine pt env []) (specs.filterMap (defineEmit env)))
    ∧ (∀ (name k s : String) (env : Env), endsWithQmark s = false →
      Env.get env s = none →
      (handleDefine name [] [(k, DefineSpec.ref s)] env).1 = [(k, Val.undef)])
    ∧ (∀ (name k s : String) (env : Env), endsWithQmark s = true →
      Env.get env (dropLastChar s) = none →
      (handleDefine name [] [(k, DefineSpec.ref s)] env).1 = [])
    ∧ (∀ (name k s : String) (env : Env) (v : Val), endsWithQmark s = false →
      Env.get env s = some v →
      (handleDefine name [] [(k, DefineSpec.ref s)] env).1 = [(k, v)])
    ∧ (∀ (name k s : String) (env : Env) (v : Val), endsWithQmark s = true →
      Env.get env (dropLastChar s) = some v →
      (handleDefine name [] [(k, DefineSpec.ref s)] env).1 = [(k, v)])
    ∧ (∀ (name k ty : String) (env : Env),
      (handleDefine name [] [(k, DefineSpec.lit ty Val.undef true)] env).1 = [])
    ∧ (∀ (name k ty : String) (env : Env) (v : Val),
      (handleDefine name [] [(k, DefineSpec.lit ty v false)] env).1 = [(k, v)])
    ∧ (∀ (name k ty : String) (env : Env) (v : Val), v ≠ Val.undef →
      (handleDefine name [] [(k, DefineSpec.lit ty v true)] env).1 = [(k, v)]) := by
  refine ⟨fun name pt specs env => defineLoop_eq_assign env specs _,
    ?_, ?_, ?_, ?_, ?_, ?_, ?_⟩
  · intro name k s env hq hget
    simp [handleDefine, defineLoop, defineStep, handleRoutine, Env.set, hq, hget]
  · intro name k s env hq hget
    simp [handleDefine, defineLoop, defineStep, handleRoutine, Env.set, hq, hget]
  · intro name k s env v hq hget
    simp [handleDefine, defineLoop, defineStep, handleRoutine, Env.set, hq, hget]
  · intro name k s env v hq hget
    simp [handleDefine, defineLoop, defineStep, handleRoutine, Env.set, hq, hget]
  · intro name k ty env
    simp [handleDefine, defineLoop, defineStep, handleRoutine, Env.set]
  · intro name k ty env v
    cases v <;> simp [handleDefine, defineLoop, defineStep, handleRoutine, Env.set]
  · intro name k ty env v hv
    cases v with
    | undef => exact absurd rfl hv
    | str s2 => simp [handleDefine, defineLoop, defineStep, handleRoutine, Env.set]
    | num n => simp [handleDefine, defineLoop, defineStep, handleRoutine, Env.set]
    | bool b => simp [handleDefine, defineLoop, defineStep, handleRoutine, Env.set]
    | arr vs => simp [handleDefine, defineLoop, defineStep, handleRoutine, Env.set]

/-- Witness for C5: a required reference to a missing name yields the key
present with the explicit absent value, while the same reference marked
optional yields no key at all. -/
theorem define_resolution_spec_witness :
    (handleDefine "d" [] [("o", DefineSpec.ref "m")] []).1 = [("o", Val.undef)]
    ∧ (handleDefine "d" [] [("o", DefineSpec.ref "m?")] []).1 = [] :=
  ⟨define_resolution_spec.2.1 "d" "o" "m" [] (by rfl) (by rfl),
    define_resolution_spec.2.2.1 "d" "o" "m?" [] (by rfl) (by rfl)⟩

/-- C10: a `define` output entry whose spec is neither a string nor an
object is silently skipped — removing it from the outputs list leaves the
routine's outputs unchanged — and the routine raises no error: execution of
a define routine always returns ok. -/
theorem define_skip_unknown_spec :
    (∀ (name : String) (pt : List String) (env : Env)
      (pre post : List (String × DefineSpec)) (k : String),
      (handleDefine name pt (pre ++ (k, DefineSpec.other) :: post) env).1 =
        (handleDefine name pt (pre ++ post) env).1)
    ∧ (∀ (L : LLM) (E : CodeEval) (p : Program) (f : Nat) (name : String)
      (env : Env) (pt : List String) (specs : List (String × DefineSpec)),
      lookupRoutine p name = some (.define pt specs) →
      ∃ out tr, executeRoutine L E p (f + 1) name env = .ok (out, tr)) := by
  constructor
  · intro name pt env pre post k
    show defineLoop env (pre ++ (k, DefineSpec.other) :: post)
        (handleRoutine pt env []) =
      defineLoop env (pre ++ post) (handleRoutine pt env [])
    rw [defineLoop_append, defineLoop_append]
    rfl
  · intro L E p f name env pt specs hl
    exact ⟨(handleDefine name pt specs env).1, (handleDefine name pt specs env).2,
      by simp only [executeRoutine, hl]⟩

/-- Witness for C10: a define routine (routine A of the concrete program)
executes without error. -/
theorem define_skip_unknown_spec_witness :
    ∃ out tr, executeRoutine L0 E0 testProg (0 + 1) "A" [] = .ok (out, tr) :=
  define_skip_unknown_spec.2 L0 E0 testProg 0 "A" [] []
    [("x", .lit "number" (.num 1) false), ("k", .lit "string" (.str "a") false)]
    (by rfl)

/-- A concrete if-program: routine I branches on variable `c` into the
define routine D on both sides. -/
def ifProg : Program :=
  { routines := [("D", .define [] [("r", .lit "number" (.num 9) false)]),
      ("I", .ifR [] "c" "D" "D")], main := "I" }

/-- C6: the if routine's condition is truthy exactly when it is present and
none of the empty values (`0`, the empty string, `false`, and the explicit
absent marker `undef` — JavaScript `undefined` — which is how an unset
variable reads); the selected branch runs against the same unmodified input
environment, its outputs are merged on top of the passthrough base, its
trace is the single child, and a falsy selected branch name is a fatal
MissingBranch error. -/
theorem if_branch_spec :
    (∀ ov : Option Val, truthy ov = false ↔
      (ov = none ∨ ov = some (Val.num 0) ∨ ov = some (Val.str "") ∨
        ov = some (Val.bool false) ∨ ov = some Val.undef))
    ∧ (∀ (L : LLM) (E : CodeEval) (p : Program) (f : Nat) (name : String)
        (env : Env) (pt : List String) (cond thn els : String),
      lookupRoutine p name = some (.ifR pt cond thn els) →
      (truthy (Env.get env cond) = false →
        (els = "" → executeRoutine L E p (f + 1) name env =
          .error (.missingBranch "else"))
        ∧ (∀ bo st, executeRoutine L E p f els env = .ok (bo, st) →
          els ≠ "" →
          executeRoutine L E p (f + 1) name env =
            .ok (Env.assign (handleRoutine pt env []) bo,
              Trace.ifT name env "else" st
                (Env.assign (handleRoutine pt env []) bo))))
      ∧ (truthy (Env.get env cond) = true →
        (thn = "" → executeRoutine L E p (f + 1) name env =
          .error (.missingBranch "then"))
        ∧ (∀ bo st, executeRoutine L E p f thn env = .ok (bo, st) →
          thn ≠ "" →
          executeRoutine L E p (f + 1) name env =
            .ok (Env.assign (handleRoutine pt env []) bo,
              Trace.ifT name env "then" st
                (Env.assign (handleRoutine pt env []) bo))))) := by
  constructor
  · intro ov
    cases ov with
    | none => simp [truthy]
    | some v => cases v <;> simp [truthy]
  · intro L E p f name env pt cond thn els hl
    refine ⟨fun hb => ⟨?_, ?_⟩, fun hb => ⟨?_, ?_⟩⟩
    · intro hels
      simp [executeRoutine, hl, handleIf, hb, hels]
    · intro bo st hstep hne
      simp [executeRoutine, hl, handleIf, hb, hstep, hne]
    · intro hthn
      simp [executeRoutine, hl, handleIf, hb, hthn]
    · intro bo st hstep hne
      simp [executeRoutine, hl, handleIf, hb, hstep, hne]

/-- Witness for C6: condition value `0` takes the else branch, which runs
against the same environment and supplies the outputs. -/
theorem if_branch_spec_witness :
    executeRoutine L0 E0 ifProg (1 + 1) "I" [("c", Val.num 0)] =
      .ok ([("r", Val.num 9)],
        Trace.ifT "I" [("c", Val.num 0)] "else"
          (Trace.define "D" [("c", Val.num 0)] [("r", Val.num 9)])
          [("r", Val.num 9)]) :=
  ((if_branch_spec.2 L0 E0 ifProg 1 "I" [("c", Val.num 0)] [] "c" "D" "D"
      (by rfl)).1 (by rfl)).2 [("r", Val.num 9)]
    (Trace.define "D" [("c", Val.num 0)] [("r", Val.num 9)])
    (by rfl) (by decide)

/-- A program whose single routine is an if with an unset (empty) then
branch name: the name resolves and the kind is known, yet execution fails
fatally. -/
def badIfProg : Program :=
  { routines := [("m", .ifR [] "c" "" "e")], main := "m" }

/-- Counterexample to C7 as stated: executeRoutine also fails fatally when
the selected if branch name is unset — here the routine name is found in the
mapping and its kind is the known kind `if`, yet the call aborts with
MissingBranch, so routine-not-found and unknown-kind are not the only
fatal failure causes of executeRoutine. -/
theorem fatal_error_cex :
    executeRoutine L0 E0 badIfProg 2 "m" [("c", Val.num 1)] =
      .error (.missingBranch "then")
    ∧ lookupRoutine badIfProg "m" = some (.ifR [] "c" "" "e")
    ∧ (Routine.ifR [] "c" "" "e").kind = "if" :=
  ⟨by rfl, by rfl, by rfl⟩

/-- Well-formedness of a program as the external validator guarantees it:
no unknown kinds, if branch names set and resolving, and every compose/join
entry resolving. -/
def WF (p : Program) : Prop :=
  ∀ name r, lookupRoutine p name = some r →
    match r with
    | .other _ => False
    | .ifR _ _ thn els =>
      thn ≠ "" ∧ els ≠ "" ∧ (lookupRoutine p thn).isSome ∧
        (lookupRoutine p els).isSome
    | .compose _ rs => ∀ rn ∈ rs, (lookupRoutine p rn).isSome
    | .join _ rs => ∀ rn ∈ rs, (lookupRoutine p rn).isSome
    | _ => True

/-- An error that is none of the structural failure causes: fuel exhaustion
(an artifact of the bounded model) or a generative-service call failure,
which the engine does not catch. -/
def nonStructural (e : Err) : Prop :=
  e = Err.fuel ∨ ∃ msg, e = Err.llmFailure msg

theorem execList_error (step : Step) :
    ∀ (rs : List String) (env : Env) (e : Err),
      (∀ rn ∈ rs, ∀ env2 e2, step rn env2 = .error e2 → nonStructural e2) →
      execList step rs env = .error e → nonStructural e := by
  intro rs
  induction rs with
  | nil =>
    intro env e _ hE
    simp [execList] at hE
  | cons rn rest ih =>
    intro env e hstep hE
    cases h : step rn env with
    | error e2 =>
      simp only [execList, h] at hE
      injection hE with h3
      rw [← h3]
      exact hstep rn (by simp) env e2 h
    | ok pr =>
      obtain ⟨o, t⟩ := pr
      cases h2 : execList step rest o with
      | error e2 =>
        simp only [execList, h, h2] at hE
        injection hE with h3
        rw [← h3]
        exact ih o e2
          (fun rn2 hm env3 e3 hs3 => hstep rn2 (by simp [hm]) env3 e3 hs3) h2
      | ok pr2 =>
        obtain ⟨fin, trs⟩ := pr2
        simp only [execList, h, h2] at hE
        exact Except.noConfusion hE

theorem joinList_error (step : Step) (env : Env) :
    ∀ (rs : List String) (acc : Env) (e : Err),
      (∀ rn ∈ rs, ∀ e2, step rn env = .error e2 → nonStructural e2) →
      joinList step env rs acc = .error e → nonStructural e := by
  intro rs
  induction rs with
  | nil =>
    intro acc e _ hE
    simp [joinList] at hE
  | cons rn rest ih =>
    intro acc e hstep hE
    cases h : step rn env with
    | error e2 =>
      simp only [joinList, h] at hE
      injection hE with h3
      rw [← h3]
      exact hstep rn (by simp) e2 h
    | ok pr =>
      obtain ⟨o, t⟩ := pr
      cases h2 : joinList step env rest (Env.assign acc o) with
      | error e2 =>
        simp only [joinList, h, h2] at hE
        injection hE with h3
        rw [← h3]
        exact ih (Env.assign acc o) e2
          (fun rn2 hm e3 hs3 => hstep rn2 (by simp [hm]) e3 hs3) h2
      | ok pr2 =>
        obtain ⟨fin, trs⟩ := pr2
        simp only [joinList, h, h2] at hE
        exact Except.noConfusion hE

/-- On a well-formed program, executing a routine that exists never fails
with any structural error: every error is fuel exhaustion or an uncaught
generative-service failure. -/
theorem exec_wf_no_fatal (L : LLM) (E : CodeEval) (p : Program) (hwf : WF p) :
    ∀ (f : Nat) (name : String) (env : Env) (e : Err),
      (lookupRoutine p name).isSome →
      executeRoutine L E p f name env = .error e → nonStructural e := by
  intro f
  induction f with
  | zero =>
    intro name env e _ hE
    simp only [executeRoutine] at hE
    injection hE with h
    exact Or.inl h.symm
  | succ f ih =>
    intro name env e hsome hE
    obtain ⟨r, hr⟩ := Option.isSome_iff_exists.mp hsome
    have hwfr := hwf name r hr
    cases r with
    | prompt pt dev user os =>
      simp only [executeRoutine, hr, handlePrompt] at hE
      cases hL : L dev (substitute user env) os with
      | throws msg =>
        simp only [hL] at hE
        injection hE with h3
        exact Or.inr ⟨msg, h3.symm⟩
      | ok m =>
        simp only [hL] at hE
        exact Except.noConfusion hE
    | code pt c => simp [executeRoutine, hr] at hE
    | define pt specs => simp [executeRoutine, hr] at hE
    | other ty => exact hwfr.elim
    | ifR pt cond thn els =>
      obtain ⟨hthn, hels, hsthn, hsels⟩ := hwfr
      simp only [executeRoutine, hr, handleIf] at hE
      cases hb : truthy (Env.get env cond) with
      | true =>
        rw [hb] at hE
        simp only [show (true = true) = True from by simp, if_true] at hE
        rw [if_neg hthn] at hE
        cases hs : executeRoutine L E p f thn env with
        | error e2 =>
          simp only [hs] at hE
          injection hE with h3
          rw [← h3]
          exact ih thn env e2 hsthn hs
        | ok pr =>
          obtain ⟨bo, st⟩ := pr
          simp only [hs] at hE
          exact Except.noConfusion hE
      | false =>
        rw [hb] at hE
        simp only [show (false = true) = False from by simp, if_false] at hE
        rw [if_neg hels] at hE
        cases hs : executeRoutine L E p f els env with
        | error e2 =>
          simp only [hs] at hE
          injection hE with h3
          rw [← h3]
          exact ih els env e2 hsels hs
        | ok pr =>
          obtain ⟨bo, st⟩ := pr
          simp only [hs] at hE
          exact Except.noConfusion hE
    | compose pt rs =>
      simp only [executeRoutine, hr, handleCompose] at hE
      cases h2 : execList (fun rn e => executeRoutine L E p f rn e) rs env with
      | error e2 =>
        simp only [h2] at hE
        injection hE with h3
        rw [← h3]
        exact execList_error _ rs env e2
          (fun rn hm env2 e3 hs => ih rn env2 e3 (hwfr rn hm) hs) h2
      | ok pr =>
        obtain ⟨o, trs⟩ := pr
        simp only [h2] at hE
        exact Except.noConfusion hE
    | join pt rs =>
      simp only [executeRoutine, hr, handleJoin] at hE
      cases h2 : joinList (fun rn e => executeRoutine L E p f rn e) env rs [] with
      | error e2 =>
        simp only [h2] at hE
        injection hE with h3
        rw [← h3]
        exact joinList_error _ env rs [] e2
          (fun rn hm e3 hs => ih rn env e3 (hwfr rn hm) hs) h2
      | ok pr =>
        obtain ⟨o, trs⟩ := pr
        simp only [h2] at hE
        exact Except.noConfusion hE

/-- C7 (amended): executeRoutine aborts the run with a fatal propagating
error exactly when the requested name is absent (RoutineNotFound naming it),
the resolved kind is unknown (UnknownRoutineKind), a selected if branch name
is unset (MissingBranch), or a prompt routine's generative-service call
fails (the uncaught failure propagating as LLMFailure); run fails fatally
when the entry routine name is unset or absent from the mapping; sub-routine
failures propagate unchanged to the caller; and on a well-formed program
every error is fuel exhaustion or a service failure, so these causes are
exhaustive. -/
theorem fatal_error_spec :
    (∀ (L : LLM) (E : CodeEval) (p : Program) (f : Nat) (name : String)
        (env : Env),
      lookupRoutine p name = none →
      executeRoutine L E p (f + 1) name env = .error (.routineNotFound name))
    ∧ (∀ (L : LLM) (E : CodeEval) (p : Program) (f : Nat) (name ty : String)
        (env : Env),
      lookupRoutine p name = some (.other ty) →
      executeRoutine L E p (f + 1) name env = .error (.unknownRoutineKind ty))
    ∧ (∀ (L : LLM) (E : CodeEval) (p : Program) (f : Nat) (name : String)
        (env : Env) (pt : List String) (cond els : String),
      lookupRoutine p name = some (.ifR pt cond "" els) →
      truthy (Env.get env cond) = true →
      executeRoutine L E p (f + 1) name env = .error (.missingBranch "then"))
    ∧ (∀ (L : LLM) (E : CodeEval) (p : Program) (f : Nat) (name : String)
        (env : Env) (pt : List String) (dev user : String)
        (os : List (String × String)) (msg : String),
      lookupRoutine p name = some (.prompt pt dev user os) →
      L dev (substitute user env) os = .throws msg →
      executeRoutine L E p (f + 1) name env = .error (.llmFailure msg))
    ∧ (∀ (L : LLM) (E : CodeEval) (p : Program) (fuel : Nat) (env : Env),
      p.main = "" → run L E p fuel env = .error .missingMain)
    ∧ (∀ (L : LLM) (E : CodeEval) (p : Program) (f : Nat) (env : Env),
      p.main ≠ "" → lookupRoutine p p.main = none →
      run L E p (f + 1) env = .error (.routineNotFound p.main))
    ∧ (∀ (L : LLM) (E : CodeEval) (p : Program) (f : Nat) (name : String)
        (env : Env) (pt : List String) (rn : String) (rest : List String)
        (e : Err),
      lookupRoutine p name = some (.compose pt (rn :: rest)) →
      executeRoutine L E p f rn env = .error e →
      executeRoutine L E p (f + 1) name env = .error e)
    ∧ (∀ (L : LLM) (E : CodeEval) (p : Program) (f : Nat) (name : String)
        (env : Env) (e : Err),
      WF p → (lookupRoutine p name).isSome →
      executeRoutine L E p f name env = .error e → nonStructural e) := by
  refine ⟨?_, ?_, ?_, ?_, ?_, ?_, ?_,
    fun L E p f name env e hwf hsome hE =>
      exec_wf_no_fatal L E p hwf f name env e hsome hE⟩
  · intro L E p f name env hl
    simp [executeRoutine, hl]
  · intro L E p f name ty env hl
    simp [executeRoutine, hl]
  · intro L E p f name env pt cond els hl hb
    simp [executeRoutine, hl, handleIf, hb]
  · intro L E p f name env pt dev user os msg hl hL
    simp [executeRoutine, hl, handlePrompt, hL]
  · intro L E p fuel env hmain
    simp [run, hmain]
  · intro L E p f env hne hl
    simp [run, hne, executeRoutine, hl]
  · intro L E p f name env pt rn rest e hl hstep
    simp [executeRoutine, hl, handleCompose, execList, hstep]

/-- Witness for C7: looking up a name absent from the concrete program's
routine mapping aborts with RoutineNotFound naming it. -/
theorem fatal_error_spec_witness :
    executeRoutine L0 E0 testProg (0 + 1) "Z" [] =
      .error (.routineNotFound "Z") :=
  fatal_error_spec.1 L0 E0 testProg 0 "Z" [] (by rfl)

theorem takeWhile_word_append (xs : List Char)
    (h : xs.all isWordChar = true) :
    (xs ++ ['\x7d']).takeWhile isWordChar = xs := by
  induction xs with
  | nil =>
    simp [List.takeWhile]
    decide
  | cons c rest ih =>
    simp only [List.all_cons, Bool.and_eq_true] at h
    simp [List.takeWhile, h.1, ih h.2]

theorem dropWhile_word_append (xs : List Char)
    (h : xs.all isWordChar = true) :
    (xs ++ ['\x7d']).dropWhile isWordChar = ['\x7d'] := by
  induction xs with
  | nil =>
    simp [List.dropWhile]
    decide
  | cons c rest ih =>
    simp only [List.all_cons, Bool.and_eq_true] at h
    simp [List.dropWhile, h.1, ih h.2]

/-- A lone placeholder over a nonempty word-character name substitutes to
`String(env[name])` when the name is defined, and to the empty string
otherwise. -/
theorem substitute_placeholder (env : Env) (nm : String) (hne : nm ≠ "")
    (hw : nm.data.all isWordChar = true) :
    substitute ("$\x7b" ++ nm ++ "\x7d") env =
      (match Env.get env nm with
       | some Val.undef => ""
       | some v => valToString v
       | none => "") := by
  obtain ⟨nmd⟩ := nm
  have hni : nmd.isEmpty = false := by
    cases nmd with
    | nil => exact absurd rfl hne
    | cons c rest => rfl
  simp only [substitute, substChars]
  rw [show (([] : List Char).append nmd).append ['\x7d'] = nmd ++ ['\x7d'] from rfl,
    takeWhile_word_append nmd hw, dropWhile_word_append nmd hw]
  simp only [hni, Bool.false_eq_true, if_false, substChars, List.append_nil]

/-- C8: a prompt routine sends the developer message verbatim and the user
message template-substituted to the generative service, records exactly that
message pair in its trace, and merges the returned mapping into the outputs
after passthrough (a service failure instead propagates fatally, uncaught);
substitution replaces a placeholder by the textual form of the environment
value when the name is defined and by the empty string when it is absent or
holds the absent marker, with no error. -/
theorem prompt_substitution_spec :
    (∀ (L : LLM) (E : CodeEval) (p : Program) (f : Nat) (name : String)
        (env : Env) (pt : List String) (dev user : String)
        (os : List (String × String)) (m : Env),
      lookupRoutine p name = some (.prompt pt dev user os) →
      L dev (substitute user env) os = .ok m →
      executeRoutine L E p (f + 1) name env =
        .ok (Env.assign (handleRoutine pt env []) m,
          Trace.prompt name env dev (substitute user env)
            (Env.assign (handleRoutine pt env []) m)))
    ∧ (∀ (L : LLM) (E : CodeEval) (p : Program) (f : Nat) (name : String)
        (env : Env) (pt : List String) (dev user : String)
        (os : List (String × String)) (msg : String),
      lookupRoutine p name = some (.prompt pt dev user os) →
      L dev (substitute user env) os = .throws msg →
      executeRoutine L E p (f + 1) name env = .error (.llmFailure msg))
    ∧ (∀ (env : Env) (nm : String) (v : Val), nm ≠ "" →
      nm.data.all isWordChar = true → Env.get env nm = some v →
      v ≠ Val.undef →
      substitute ("$\x7b" ++ nm ++ "\x7d") env = valToString v)
    ∧ (∀ (env : Env) (nm : String), nm ≠ "" →
      nm.data.all isWordChar = true → Env.get env nm = none →
      substitute ("$\x7b" ++ nm ++ "\x7d") env = "")
    ∧ (∀ (env : Env) (nm : String), nm ≠ "" →
      nm.data.all isWordChar = true → Env.get env nm = some Val.undef →
      substitute ("$\x7b" ++ nm ++ "\x7d") env = "") := by
  refine ⟨?_, ?_, ?_, ?_, ?_⟩
  · intro L E p f name env pt dev user os m hl hL
    simp only [executeRoutine, hl, handlePrompt, hL]
  · intro L E p f name env pt dev user os msg hl hL
    simp only [executeRoutine, hl, handlePrompt, hL]
  · intro env nm v hne hw hv hvu
    rw [substitute_placeholder env nm hne hw, hv]
    cases v with
    | undef => exact absurd rfl hvu
    | str s2 => rfl
    | num n => rfl
    | bool b => rfl
    | arr vs => rfl
  · intro env nm hne hw hv
    rw [substitute_placeholder env nm hne hw, hv]
  · intro env nm hne hw hv
    rw [substitute_placeholder env nm hne hw, hv]

/-- Witness for C8: a defined placeholder substitutes to the value's textual
form. -/
theorem prompt_substitution_spec_witness :
    substitute ("$\x7b" ++ "x" ++ "\x7d") [("x", Val.num 5)] =
      valToString (Val.num 5) :=
  prompt_substitution_spec.2.2.1 [("x", Val.num 5)] "x" (Val.num 5)
    (by decide) (by decide) (by rfl) (by simp)

/-- C9: the trace node of every successfully executed routine records the
routine's name, the routine's kind tag, and the input environment as it was
at the moment the routine began executing; in this functional model every
handler receives its environment by value, so the caller's mapping is
unchanged by construction. -/
theorem trace_snapshot_spec (L : LLM) (E : CodeEval) (p : Program) (f : Nat)
    (name : String) (env out : Env) (tr : Trace)
    (hE : executeRoutine L E p f name env = .ok (out, tr)) :
    tr.routineName = name ∧ tr.inputs = env ∧
      ∃ r, lookupRoutine p name = some r ∧ tr.kind = r.kind := by
  cases f with
  | zero =>
    simp only [executeRoutine] at hE
    exact Except.noConfusion hE
  | succ f =>
    cases hr : lookupRoutine p name with
    | none =>
      simp only [executeRoutine, hr] at hE
      exact Except.noConfusion hE
    | some r =>
      cases r with
      | prompt pt dev user os =>
        simp only [executeRoutine, hr, handlePrompt] at hE
        cases hL : L dev (substitute user env) os with
        | throws msg =>
          simp only [hL] at hE
          exact Except.noConfusion hE
        | ok m =>
          simp only [hL, Except.ok.injEq, Prod.mk.injEq] at hE
          rw [← hE.2]
          exact ⟨rfl, rfl, _, rfl, rfl⟩
      | code pt c =>
        simp only [executeRoutine, hr, handleCode, Except.ok.injEq,
          Prod.mk.injEq] at hE
        rw [← hE.2]
        exact ⟨rfl, rfl, _, rfl, rfl⟩
      | define pt specs =>
        simp only [executeRoutine, hr, handleDefine, Except.ok.injEq,
          Prod.mk.injEq] at hE
        rw [← hE.2]
        exact ⟨rfl, rfl, _, rfl, rfl⟩
      | ifR pt cond thn els =>
        simp only [executeRoutine, hr] at hE
        obtain ⟨bo, st, hs, ho, htr⟩ :=
          handleIf_ok_shape _ name pt cond thn els env out tr hE
        rw [htr]
        exact ⟨rfl, rfl, _, rfl, rfl⟩
      | compose pt rs =>
        simp only [executeRoutine, hr, handleCompose] at hE
        cases h2 : execList (fun rn e => executeRoutine L E p f rn e) rs env with
        | error e =>
          simp only [h2] at hE
          exact Except.noConfusion hE
        | ok pr =>
          obtain ⟨o, trs⟩ := pr
          simp only [h2, Except.ok.injEq, Prod.mk.injEq] at hE
          rw [← hE.2]
          exact ⟨rfl, rfl, _, rfl, rfl⟩
      | join pt rs =>
        simp only [executeRoutine, hr, handleJoin] at hE
        cases h2 : joinList (fun rn e => executeRoutine L E p f rn e) env rs [] with
        | error e =>
          simp only [h2] at hE
          exact Except.noConfusion hE
        | ok pr =>
          obtain ⟨o, trs⟩ := pr
          simp only [h2, Except.ok.injEq, Prod.mk.injEq] at hE
          rw [← hE.2]
          exact ⟨rfl, rfl, _, rfl, rfl⟩
      | other ty =>
        simp only [executeRoutine, hr] at hE
        exact Except.noConfusion hE

/-- Witness for C9: the compose node of the concrete program records its
name, its kind and the empty input snapshot. -/
theorem trace_snapshot_spec_witness :
    (Trace.compose "C" [] [Trace.define "A" [] outA,
        Trace.define "B" outA outB] outB).routineName = "C"
    ∧ (Trace.compose "C" [] [Trace.define "A" [] outA,
        Trace.define "B" outA outB] outB).inputs = []
    ∧ ∃ r, lookupRoutine testProg "C" = some r ∧
      (Trace.compose "C" [] [Trace.define "A" [] outA,
        Trace.define "B" outA outB] outB).kind = r.kind :=
  trace_snapshot_spec L0 E0 testProg 2 "C" [] outB
    (Trace.compose "C" [] [Trace.define "A" [] outA,
      Trace.define "B" outA outB] outB) (by rfl)

end LLMFlow
